import Mathlib

/-!
Shallow embedding of `scripts/postprocess.py` (caption post-processing:
SRT parsing, caption merging, timestamp codec, transliteration selection).

Modelling conventions:
* Python `str` values are modelled as `List Char` (a string is a sequence of
  code points).  String literals are written `"...".data`.
* Python `float` times are modelled as `ℚ`; the contract precision of the
  program is millisecond granularity.
* A Python exception is modelled by `Option`/`none` at the level of the
  function that the exception escapes from.
* `str.strip` and the regex class `\s` are modelled over the ASCII whitespace
  set (space, tab, newline, carriage return, vertical tab, form feed), which
  covers every character the relevant files contain.
-/

/-- ASCII whitespace, the model of Python whitespace / regex `\s`. -/
def isPySpace (c : Char) : Bool :=
  c == ' ' || c == '\t' || c == '\n' || c == '\r' || c == '\x0b' || c == '\x0c'

/-- Python `str.lstrip()`. -/
def pyLstrip (l : List Char) : List Char := l.dropWhile isPySpace

/-- Python `str.rstrip()`. -/
def pyRstrip (l : List Char) : List Char := (l.reverse.dropWhile isPySpace).reverse

/-- Python `str.strip()`. -/
def pyStrip (l : List Char) : List Char := pyRstrip (pyLstrip l)

/-- Python `s.split(sep)` for a single-character separator `sep`. -/
def splitOnChar (sep : Char) : List Char → List (List Char)
  | [] => [[]]
  | c :: rest =>
    if c == sep then
      [] :: splitOnChar sep rest
    else
      match splitOnChar sep rest with
      | [] => [[c]]
      | p :: ps => (c :: p) :: ps

/-- `sep.join(parts)` for a single-character separator. -/
def joinChar (sep : Char) : List (List Char) → List Char
  | [] => []
  | [t] => t
  | t :: u :: rest => t ++ sep :: joinChar sep (u :: rest)

/-- Value of a decimal digit character run, as folded by `int()`. -/
def valAux (a : ℕ) (l : List Char) : ℕ :=
  l.foldl (fun acc c => 10 * acc + (c.toNat - 48)) a

/-- Python `int(s)` on a string: strip whitespace, optional single sign,
then a non-empty run of decimal digits.  (Underscore digit grouping and
non-ASCII decimal digits, which the relevant inputs never contain, are not
modelled.)  `none` models a raised `ValueError`. -/
def pyInt (s : List Char) : Option ℤ :=
  match pyStrip s with
  | [] => none
  | c :: ds =>
    if c == '-' then
      if ds ≠ [] ∧ ds.all Char.isDigit then some (-(valAux 0 ds : ℤ)) else none
    else if c == '+' then
      if ds ≠ [] ∧ ds.all Char.isDigit then some ((valAux 0 ds : ℤ)) else none
    else
      if (c :: ds).all Char.isDigit then some ((valAux 0 (c :: ds) : ℤ)) else none

/-- The character of a decimal digit `d < 10`. -/
def digitChar (d : ℕ) : Char := Char.ofNat (48 + d)

/-- Most-significant-first decimal digits of a positive number; `fuel` bounds
the recursion depth (structural recursion keeps the kernel able to evaluate). -/
def natToDigitsAux : ℕ → ℕ → List Char
  | 0, _ => []
  | fuel + 1, n =>
    if n = 0 then [] else natToDigitsAux fuel (n / 10) ++ [digitChar (n % 10)]

/-- Decimal representation of a natural number, as produced by `str(n)`. -/
def natToDigits (n : ℕ) : List Char :=
  if n = 0 then ['0'] else natToDigitsAux n n

/-- Zero padding to minimum width `w`, as in `f"{n:0wd}"`. -/
def zpad (w : ℕ) (l : List Char) : List Char :=
  List.replicate (w - l.length) '0' ++ l

/-- Python `f"{n:0wd}"` for an integer `n`.  A negative number carries its
sign before the zero padding. -/
def pyFmtInt (w : ℕ) (n : ℤ) : List Char :=
  if n < 0 then '-' :: zpad (w - 1) (natToDigits (-n).toNat)
  else zpad w (natToDigits n.toNat)

/-- Python `int(q)` for a rational (truncation toward zero). -/
def pyTrunc (q : ℚ) : ℤ := if q < 0 then -⌊-q⌋ else ⌊q⌋

/-- Python `a % b` on numbers (sign follows the divisor; here used with
positive divisors, where it is `a - b*⌊a/b⌋`). -/
def pyMod (a b : ℚ) : ℚ := a - b * ⌊a / b⌋

/-- Python 3 `round()` to an integer: nearest, ties to even. -/
def pyRound (q : ℚ) : ℤ :=
  if q - ⌊q⌋ < 1 / 2 then ⌊q⌋
  else if 1 / 2 < q - ⌊q⌋ then ⌊q⌋ + 1
  else if ⌊q⌋ % 2 = 0 then ⌊q⌋ else ⌊q⌋ + 1

/-- `parse_srt_timestamp` (postprocess.py lines 12–25):
`time_part, ms_part = ts.split(',')`; `h, m, s = map(int, time_part.split(':'))`;
`ms = int(ms_part)`; returns `h*3600 + m*60 + s + ms/1000.0`.
`none` models the `ValueError` raised on a shape or integer failure. -/
def parse_srt_timestamp (ts : List Char) : Option ℚ :=
  match splitOnChar ',' ts with
  | [time_part, ms_part] =>
    match splitOnChar ':' time_part with
    | [hs, ms, ss] =>
      match pyInt hs, pyInt ms, pyInt ss, pyInt ms_part with
      | some h, some m, some s, some milli =>
        some ((h : ℚ) * 3600 + (m : ℚ) * 60 + (s : ℚ) + (milli : ℚ) / 1000)
      | _, _, _, _ => none
    | _ => none
  | _ => none

/-- `format_srt_timestamp` (postprocess.py lines 28–41):
`h = int(seconds // 3600)`; `m = int((seconds % 3600) // 60)`;
`s = int(seconds % 60)`; `ms = int(round((seconds - int(seconds)) * 1000))`;
`f"{h:02d}:{m:02d}:{s:02d},{ms:03d}"`. -/
def format_srt_timestamp (seconds : ℚ) : List Char :=
  let h : ℤ := ⌊seconds / 3600⌋
  let m : ℤ := ⌊pyMod seconds 3600 / 60⌋
  let s : ℤ := pyTrunc (pyMod seconds 60)
  let ms : ℤ := pyRound ((seconds - pyTrunc seconds) * 1000)
  pyFmtInt 2 h ++ ':' :: pyFmtInt 2 m ++ ':' :: pyFmtInt 2 s ++ ',' :: pyFmtInt 3 ms

/-- `format_vtt_timestamp` (postprocess.py lines 44–57): identical fields,
period separator. -/
def format_vtt_timestamp (seconds : ℚ) : List Char :=
  let h : ℤ := ⌊seconds / 3600⌋
  let m : ℤ := ⌊pyMod seconds 3600 / 60⌋
  let s : ℤ := pyTrunc (pyMod seconds 60)
  let ms : ℤ := pyRound ((seconds - pyTrunc seconds) * 1000)
  pyFmtInt 2 h ++ ':' :: pyFmtInt 2 m ++ ':' :: pyFmtInt 2 s ++ '.' :: pyFmtInt 3 ms

/-- A caption segment: the dict `{'start': float, 'end': float, 'text': str}`. -/
structure Segment where
  start : ℚ
  «end» : ℚ
  text : List Char
  deriving DecidableEq

/-- `current['text'].rstrip().endswith(('.', '?', '!'))`. -/
def endsTerminal (t : List Char) : Bool :=
  match (pyRstrip t).getLast? with
  | some c => c == '.' || c == '?' || c == '!'
  | none => false

/-- One iteration decision of the merge loop (postprocess.py lines 146–150):
`should_merge = (not has_terminal and gap <= max_gap and len(combined_text) <= max_chars)`. -/
def shouldMerge (max_chars : ℕ) (max_gap : ℚ) (current seg : Segment) : Bool :=
  !endsTerminal current.text
    && decide (seg.start - current.«end» ≤ max_gap)
    && decide ((current.text ++ ' ' :: pyStrip seg.text).length ≤ max_chars)

/-- The state update on a merge (postprocess.py lines 152–155):
`current['end'] = seg['end']; current['text'] = combined_text`. -/
def mergeStep (current seg : Segment) : Segment :=
  { current with
      «end» := seg.«end»,
      text := current.text ++ ' ' :: pyStrip seg.text }

/-- A fresh accumulator seeded from a segment, with stripped text
(postprocess.py lines 125–129 and 159–163). -/
def stripSeed (s : Segment) : Segment := ⟨s.start, s.«end», pyStrip s.text⟩

/-- The merge loop of `merge_captions` (postprocess.py lines 131–166), with
`current` the accumulator; the final accumulator is appended at the end. -/
def mergeGo (max_chars : ℕ) (max_gap : ℚ) (current : Segment) :
    List Segment → List Segment
  | [] => [current]
  | seg :: rest =>
    if shouldMerge max_chars max_gap current seg then
      mergeGo max_chars max_gap (mergeStep current seg) rest
    else
      current :: mergeGo max_chars max_gap (stripSeed seg) rest

/-- `merge_captions` (postprocess.py lines 106–168).  The Python defaults are
`max_chars=140`, `max_gap=1.0`. -/
def merge_captions (max_chars : ℕ) (max_gap : ℚ) : List Segment → List Segment
  | [] => []
  | s :: rest => mergeGo max_chars max_gap (stripSeed s) rest

/-- The accumulator value after merging the segments of `t` (in order) into a
fresh accumulator seeded from `h`. -/
def accOf (h : Segment) (t : List Segment) : Segment :=
  t.foldl mergeStep (stripSeed h)

/-- The segment that merging the consecutive run `h :: t` produces, stated the
way the specification describes it: `start` of the first constituent, `end` of
the last constituent, and the single-space join of the stripped texts in
order. -/
def chunkMerge (h : Segment) (t : List Segment) : Segment :=
  ⟨h.start, (t.getLast?.getD h).«end»,
    joinChar ' ' ((h :: t).map fun s => pyStrip s.text)⟩

/-- Total character count of the texts of a segment list. -/
def sumTextLen (l : List Segment) : ℕ := (l.map fun s => s.text.length).sum

/-- The regex prefix match `re.match(r'(\S+)\s+-->\s+(\S+)', line)`
(postprocess.py line 89), returning the two captured tokens.  The regex is
deterministic here: each `\S+`/`\s+` takes its maximal run (any backtracked
shorter run would put the wrong character class at the following position). -/
def timingMatch (l : List Char) : Option (List Char × List Char) :=
  let p1 := l.span fun c => !isPySpace c
  if p1.1 = [] then none
  else
    let p2 := p1.2.span isPySpace
    if p2.1 = [] then none
    else
      match p2.2 with
      | '-' :: '-' :: '>' :: r3 =>
        let p3 := r3.span isPySpace
        if p3.1 = [] then none
        else
          let p4 := p3.2.span fun c => !isPySpace c
          if p4.1 = [] then none else some (p1.1, p4.1)
      | _ => none

/-- `re.split(r'\n\n+', content)`: split on maximal runs of two or more
newlines.  `fuel` bounds the recursion depth (structural recursion keeps the
kernel able to evaluate); `splitBlocks` supplies enough fuel. -/
def splitBlocksF : ℕ → List Char → List (List Char)
  | 0, l => [l]
  | _ + 1, [] => [[]]
  | fuel + 1, '\n' :: '\n' :: rest =>
    [] :: splitBlocksF fuel (rest.dropWhile fun c => c == '\n')
  | fuel + 1, c :: rest =>
    match splitBlocksF fuel rest with
    | [] => [[c]]
    | p :: ps => (c :: p) :: ps

/-- `re.split(r'\n\n+', content)` (postprocess.py line 75). -/
def splitBlocks (l : List Char) : List (List Char) := splitBlocksF l.length l

/-- `block.strip().split('\n')` (postprocess.py line 78). -/
def blockLines (b : List Char) : List (List Char) := splitOnChar '\n' (pyStrip b)

/-- The block loop of `parse_srt_file` (postprocess.py lines 77–101): blocks
with fewer than 3 lines are skipped; blocks whose second line does not match
the timing pattern are skipped; timestamp parse failures raise (`none`). -/
def parseBlocks : List (List Char) → Option (List Segment)
  | [] => some []
  | b :: rest =>
    match blockLines b with
    | _ :: timestamp_line :: t0 :: ts =>
      match timingMatch timestamp_line with
      | none => parseBlocks rest
      | some (start_ts, end_ts) =>
        match parse_srt_timestamp start_ts, parse_srt_timestamp end_ts with
        | some start, some «end» =>
          (parseBlocks rest).map fun segs =>
            ⟨start, «end», joinChar '\n' (t0 :: ts)⟩ :: segs
        | _, _ => none
    | _ => parseBlocks rest

/-- `parse_srt_file` (postprocess.py lines 60–103), applied to the file's
content string.  `none` models the `ValueError` escaping from
`parse_srt_timestamp`. -/
def parse_srt_file (content : List Char) : Option (List Segment) :=
  parseBlocks (splitBlocks (pyStrip content))

/-- Count of characters in the Devanagari block
(`sum(1 for c in result if 'ऀ' <= c <= 'ॿ')`, postprocess.py
line 244). -/
def devanagariCount (l : List Char) : ℕ :=
  (l.filter fun c => decide (0x900 ≤ c.toNat) && decide (c.toNat ≤ 0x97F)).length

/-- The scheme loop of `transliterate_to_devanagari` (postprocess.py lines
240–252).  A scheme is a conversion function `text -> text`; `none` models a
raised conversion failure, which the loop skips.  `best` and `score` are
`best_result` and `best_score`. -/
def selectGo (text : List Char) :
    List (List Char → Option (List Char)) → List Char → ℕ → List Char
  | [], best, _ => best
  | scheme :: rest, best, score =>
    match scheme text with
    | none => selectGo text rest best score
    | some result =>
      if score < devanagariCount result then
        selectGo text rest result (devanagariCount result)
      else
        selectGo text rest best score

/-- `transliterate_to_devanagari` (postprocess.py lines 211–252).  The
external `indic_transliteration` capability is a parameter: `available`
models whether the import succeeds (on `ImportError` the input text is
returned unchanged), and `schemes` models the ordered candidate conversion
functions `transliterate(·, scheme, DEVANAGARI)`. -/
def transliterate_to_devanagari (available : Bool)
    (schemes : List (List Char → Option (List Char))) (text : List Char) :
    List Char :=
  if available then selectGo text schemes text 0 else text

/-- `transliterate_segments` (postprocess.py lines 255–270):
`[{**seg, 'text': transliterate_to_devanagari(seg['text'])} for seg in segments]`. -/
def transliterate_segments (available : Bool)
    (schemes : List (List Char → Option (List Char))) (segments : List Segment) :
    List Segment :=
  segments.map fun seg =>
    { seg with text := transliterate_to_devanagari available schemes seg.text }

/-- The selection loop of `transliterate_to_devanagari`, rephrased over the
list of successful conversion results (in scheme order): keep a result only
when its Devanagari character count strictly exceeds the running best score. -/
def pickBest : List (List Char) → List Char → ℕ → List Char
  | [], best, _ => best
  | r :: rest, best, score =>
    if score < devanagariCount r then pickBest rest r (devanagariCount r)
    else pickBest rest best score

/-- The shape requirement of `parse_srt_timestamp`: exactly one comma (two
comma parts) and a time part of exactly three colon parts. -/
def tsShape (ts : List Char) : Prop :=
  (splitOnChar ',' ts).length = 2 ∧
  (splitOnChar ':' ((splitOnChar ',' ts).getD 0 [])).length = 3

/-- The four numeric fields of a timestamp token: hours, minutes, seconds
(from the comma-left part) and milliseconds (the comma-right part). -/
def tsFields (ts : List Char) : List (List Char) :=
  splitOnChar ':' ((splitOnChar ',' ts).getD 0 []) ++
    [(splitOnChar ',' ts).getD 1 []]

/-- The shape the specification requires of a formatted SRT timestamp:
an at-least-two-digit hour field, two-digit minute and second fields, and an
exactly-three-digit millisecond field, separated `HH:MM:SS,mmm`. -/
def srtShapeCheck (l : List Char) : Bool :=
  match splitOnChar ',' l with
  | [tp, msp] =>
    (match splitOnChar ':' tp with
     | [hs, mins, ss] =>
       decide (2 ≤ hs.length) && hs.all Char.isDigit &&
       (mins.length == 2) && mins.all Char.isDigit &&
       (ss.length == 2) && ss.all Char.isDigit
     | _ => false) &&
    (msp.length == 3) && msp.all Char.isDigit
  | _ => false

/-- The same shape requirement with the period separator of the VTT style:
`HH:MM:SS.mmm` with an at-least-two-digit hour field, two-digit minute and
second fields, and an exactly-three-digit millisecond field. -/
def vttShapeCheck (l : List Char) : Bool :=
  match splitOnChar '.' l with
  | [tp, msp] =>
    (match splitOnChar ':' tp with
     | [hs, mins, ss] =>
       decide (2 ≤ hs.length) && hs.all Char.isDigit &&
       (mins.length == 2) && mins.all Char.isDigit &&
       (ss.length == 2) && ss.all Char.isDigit
     | _ => false) &&
    (msp.length == 3) && msp.all Char.isDigit
  | _ => false

/-! ## Helper lemmas -/

theorem shouldMerge_eq_true_iff (max_chars : ℕ) (max_gap : ℚ)
    (current seg : Segment) :
    shouldMerge max_chars max_gap current seg = true ↔
      (endsTerminal current.text = false ∧
        seg.start - current.«end» ≤ max_gap ∧
        (current.text ++ ' ' :: pyStrip seg.text).length ≤ max_chars) := by
  simp [shouldMerge, Bool.and_eq_true, decide_eq_true_iff, Bool.not_eq_true',
    and_assoc]

theorem joinChar_concat (c : Char) :
    ∀ (x : List Char) (xs : List (List Char)) (y : List Char),
    joinChar c ((x :: xs) ++ [y]) = joinChar c (x :: xs) ++ c :: y := by
  intro x xs
  induction xs generalizing x with
  | nil => intro y; rfl
  | cons u rest ih =>
    intro y
    show x ++ c :: joinChar c ((u :: rest) ++ [y]) = _
    rw [ih u y]
    simp [joinChar]

theorem joinChar_length (c : Char) :
    ∀ (x : List Char) (xs : List (List Char)),
    (joinChar c (x :: xs)).length = x.length + ((xs.map List.length).sum + xs.length) := by
  intro x xs
  induction xs generalizing x with
  | nil => simp [joinChar]
  | cons u rest ih =>
    show (x ++ c :: joinChar c (u :: rest)).length = _
    simp only [List.length_append, List.length_cons, ih u, List.map_cons,
      List.sum_cons, List.length]
    omega

theorem pyLstrip_length_le (l : List Char) : (pyLstrip l).length ≤ l.length :=
  (List.dropWhile_sublist (l := l) (p := isPySpace)).length_le

theorem pyRstrip_length_le (l : List Char) : (pyRstrip l).length ≤ l.length := by
  have h := (List.dropWhile_sublist (l := l.reverse) (p := isPySpace)).length_le
  simpa [pyRstrip] using h

theorem pyStrip_length_le (l : List Char) : (pyStrip l).length ≤ l.length :=
  le_trans (pyRstrip_length_le _) (pyLstrip_length_le l)

theorem foldl_mergeStep_start :
    ∀ (t : List Segment) (c : Segment), (t.foldl mergeStep c).start = c.start := by
  intro t
  induction t with
  | nil => intro c; rfl
  | cons a t ih => intro c; rw [List.foldl_cons, ih]; rfl

theorem accOf_eq_chunkMerge (h : Segment) (t : List Segment) :
    accOf h t = chunkMerge h t := by
  induction t using List.reverseRecOn with
  | nil => rfl
  | append_singleton t a ih =>
    rw [accOf, List.foldl_append, List.foldl_cons, List.foldl_nil, ← accOf, ih]
    show mergeStep (chunkMerge h t) a = chunkMerge h (t ++ [a])
    simp only [mergeStep, chunkMerge, List.getLast?_concat, Option.getD_some,
      List.map_append, List.map_cons, List.map_nil, List.cons_append]
    rw [← List.cons_append, joinChar_concat]

theorem mergeGo_chunks (mc : ℕ) (mg : ℚ) :
    ∀ (rest : List Segment) (h : Segment) (t : List Segment),
    ∃ (t' : List Segment) (chunks : List (Segment × List Segment)),
      (((h, t ++ t') :: chunks).map fun p => p.1 :: p.2).flatten = (h :: t) ++ rest ∧
      mergeGo mc mg (accOf h t) rest =
        ((h, t ++ t') :: chunks).map fun p => chunkMerge p.1 p.2 := by
  intro rest
  induction rest with
  | nil =>
    intro h t
    refine ⟨[], [], by simp, ?_⟩
    simp [mergeGo, accOf_eq_chunkMerge]
  | cons seg rest ih =>
    intro h t
    by_cases hm : shouldMerge mc mg (accOf h t) seg = true
    · obtain ⟨t'', chunks, hjoin, hout⟩ := ih h (t ++ [seg])
      refine ⟨seg :: t'', chunks, ?_, ?_⟩
      · rw [show t ++ seg :: t'' = (t ++ [seg]) ++ t'' by simp]
        rw [hjoin]
        simp
      · have hstep : accOf h (t ++ [seg]) = mergeStep (accOf h t) seg := by
          rw [accOf, List.foldl_append, List.foldl_cons, List.foldl_nil, ← accOf]
        rw [mergeGo, if_pos hm, ← hstep, hout,
          show t ++ seg :: t'' = (t ++ [seg]) ++ t'' by simp]
    · obtain ⟨t'', chunks, hjoin, hout⟩ := ih seg []
      refine ⟨[], (seg, [] ++ t'') :: chunks, ?_, ?_⟩
      · simp only [List.map_cons, List.flatten_cons] at hjoin ⊢
        rw [hjoin]
        simp
      · rw [mergeGo, if_neg hm]
        have hseed : stripSeed seg = accOf seg [] := rfl
        rw [hseed, hout]
        simp [accOf_eq_chunkMerge]


theorem sumTextLen_append (a b : List Segment) :
    sumTextLen (a ++ b) = sumTextLen a + sumTextLen b := by
  simp [sumTextLen]

theorem chunkMerge_text_length (h : Segment) (t : List Segment) :
    (chunkMerge h t).text.length + 1 ≤ sumTextLen (h :: t) + (h :: t).length := by
  have hmap : ((h :: t).map fun s => pyStrip s.text) =
      pyStrip h.text :: (t.map fun s => pyStrip s.text) := by simp
  have hj := joinChar_length ' ' (pyStrip h.text) (t.map fun s => pyStrip s.text)
  have hsum : (((t.map fun s => pyStrip s.text).map List.length)).sum ≤
      ((t.map fun s => s.text.length)).sum := by
    rw [List.map_map]
    exact List.sum_le_sum fun s _ => pyStrip_length_le s.text
  have hh := pyStrip_length_le h.text
  simp only [chunkMerge, hmap, hj, sumTextLen, List.map_cons, List.sum_cons,
    List.length_cons, List.length_map] at *
  omega

theorem chunks_sum_bound :
    ∀ chunks : List (Segment × List Segment),
    sumTextLen (chunks.map fun p => chunkMerge p.1 p.2) + chunks.length ≤
      sumTextLen ((chunks.map fun p => p.1 :: p.2).flatten) +
        ((chunks.map fun p => p.1 :: p.2).flatten).length := by
  intro chunks
  induction chunks with
  | nil => simp [sumTextLen]
  | cons p rest ih =>
    have hp := chunkMerge_text_length p.1 p.2
    simp only [List.map_cons, List.flatten_cons, List.length_cons,
      List.length_append, sumTextLen, List.sum_cons, List.map_append,
      List.sum_append] at *
    omega

theorem chunks_length_le :
    ∀ chunks : List (Segment × List Segment),
    chunks.length ≤ ((chunks.map fun p => p.1 :: p.2).flatten).length := by
  intro chunks
  induction chunks with
  | nil => simp
  | cons p rest ih => simp only [List.map_cons, List.flatten_cons,
      List.length_cons, List.length_append]; omega

/-! ## Claim theorems: caption merging -/

/-- **C1** For every accumulator and subsequent segment, the merge loop
combines the segment into the accumulator exactly when all three conditions
hold (no terminal `.`/`?`/`!` at the right-stripped end of the accumulator
text, gap at most `max_gap`, combined length at most `max_chars`, both
thresholds inclusive); otherwise it flushes the accumulator.  In particular an
accumulator whose text ends in terminal punctuation is never merged with the
following segment, regardless of gap or length. -/
theorem merge_condition_characterization (max_chars : ℕ) (max_gap : ℚ)
    (current s0 seg : Segment) (rest : List Segment) :
    ((endsTerminal current.text = false ∧
        seg.start - current.«end» ≤ max_gap ∧
        (current.text ++ ' ' :: pyStrip seg.text).length ≤ max_chars) →
      mergeGo max_chars max_gap current (seg :: rest) =
        mergeGo max_chars max_gap (mergeStep current seg) rest) ∧
    (¬ (endsTerminal current.text = false ∧
        seg.start - current.«end» ≤ max_gap ∧
        (current.text ++ ' ' :: pyStrip seg.text).length ≤ max_chars) →
      mergeGo max_chars max_gap current (seg :: rest) =
        current :: mergeGo max_chars max_gap (stripSeed seg) rest) ∧
    (endsTerminal current.text = true →
      mergeGo max_chars max_gap current (seg :: rest) =
        current :: mergeGo max_chars max_gap (stripSeed seg) rest) ∧
    (endsTerminal (pyStrip s0.text) = true →
      merge_captions max_chars max_gap (s0 :: seg :: rest) =
        stripSeed s0 :: merge_captions max_chars max_gap (seg :: rest)) := by
  refine ⟨?_, ?_, ?_, ?_⟩
  · intro hc
    rw [mergeGo, if_pos ((shouldMerge_eq_true_iff _ _ _ _).mpr hc)]
  · intro hc
    rw [mergeGo, if_neg fun hm => hc ((shouldMerge_eq_true_iff _ _ _ _).mp hm)]
  · intro ht
    rw [mergeGo, if_neg fun hm => by
      have h1 := ((shouldMerge_eq_true_iff _ _ _ _).mp hm).1
      rw [ht] at h1
      simp at h1]
  · intro ht
    show mergeGo max_chars max_gap (stripSeed s0) (seg :: rest) = _
    rw [mergeGo, if_neg fun hm => by
      have h1 := ((shouldMerge_eq_true_iff _ _ _ _).mp hm).1
      rw [show (stripSeed s0).text = pyStrip s0.text from rfl, ht] at h1
      simp at h1]
    rfl

/-- Witness for C1: a concrete accumulator ending in `'.'` flushes. -/
theorem merge_condition_characterization_witness :
    mergeGo 140 1 ⟨0, 1, "Hi.".data⟩ [⟨2, 3, " there ".data⟩] =
      ⟨0, 1, "Hi.".data⟩ :: mergeGo 140 1 (stripSeed ⟨2, 3, " there ".data⟩) [] :=
  (merge_condition_characterization 140 1 ⟨0, 1, "Hi.".data⟩ ⟨0, 0, []⟩
    ⟨2, 3, " there ".data⟩ []).2.2.1 (by decide)

/-- **C2** Every `merge_captions` output decomposes the input into consecutive
non-empty chunks, each output segment taking the first constituent's `start`,
the last merged-in constituent's `end`, and the single-space join of the
constituents' stripped texts in original order; consequently the total output
text length is at most the total input text length plus the number of merges
performed. -/
theorem merge_chunks_decomposition (max_chars : ℕ) (max_gap : ℚ)
    (l : List Segment) :
    ∃ chunks : List (Segment × List Segment),
      (chunks.map fun p => p.1 :: p.2).flatten = l ∧
      merge_captions max_chars max_gap l = chunks.map (fun p => chunkMerge p.1 p.2) ∧
      sumTextLen (merge_captions max_chars max_gap l) ≤
        sumTextLen l +
          (l.length - (merge_captions max_chars max_gap l).length) := by
  cases l with
  | nil => exact ⟨[], rfl, rfl, by simp [merge_captions, sumTextLen]⟩
  | cons s rest =>
    obtain ⟨t', chunks, hjoin, hout⟩ := mergeGo_chunks max_chars max_gap rest s []
    simp only [List.nil_append] at hjoin hout
    have hflat : (((s, t') :: chunks).map fun p => p.1 :: p.2).flatten = s :: rest := by
      rw [hjoin]; simp
    have hmc : merge_captions max_chars max_gap (s :: rest) =
        ((s, t') :: chunks).map fun p => chunkMerge p.1 p.2 := by
      show mergeGo max_chars max_gap (stripSeed s) rest = _
      have hseed : stripSeed s = accOf s [] := rfl
      rw [hseed, hout]
    refine ⟨(s, t') :: chunks, hflat, hmc, ?_⟩
    have h1 := chunks_sum_bound ((s, t') :: chunks)
    have h2 := chunks_length_le ((s, t') :: chunks)
    rw [hflat] at h1 h2
    rw [hmc]
    simp only [List.length_map, List.length_cons] at *
    omega

/-- **C9 counterexample** The claim `merge([s]) == [s]` fails when `s.text`
carries surrounding whitespace: the code strips the seeded accumulator text. -/
theorem merge_singleton_strips :
    merge_captions 140 1 [⟨0, 1, " hi ".data⟩] ≠ [⟨0, 1, " hi ".data⟩] := by
  decide

/-- **C9 (amended)** `merge_captions [] = []` (no phantom segment is flushed),
and `merge_captions [s]` is the one-element list containing `s` with its text
stripped — equal to `[s]` exactly as given whenever `s.text` carries no
leading or trailing whitespace. -/
theorem merge_identity_amended (max_chars : ℕ) (max_gap : ℚ) :
    merge_captions max_chars max_gap [] = [] ∧
    (∀ s : Segment, merge_captions max_chars max_gap [s] = [stripSeed s]) ∧
    (∀ s : Segment, pyStrip s.text = s.text →
      merge_captions max_chars max_gap [s] = [s]) := by
  refine ⟨rfl, fun s => rfl, fun s h => ?_⟩
  show [stripSeed s] = [s]
  rw [show stripSeed s = ⟨s.start, s.«end», pyStrip s.text⟩ from rfl, h]

/-- Witness for C9 (amended): a concrete already-stripped segment is returned
unchanged. -/
theorem merge_identity_amended_witness :
    merge_captions 140 1 [⟨0, 1, "hi".data⟩] = [⟨0, 1, "hi".data⟩] :=
  (merge_identity_amended 140 1).2.2 ⟨0, 1, "hi".data⟩ (by decide)

theorem selectGo_eq_pickBest (text : List Char) :
    ∀ (schemes : List (List Char → Option (List Char)))
      (best : List Char) (score : ℕ),
    selectGo text schemes best score =
      pickBest (schemes.filterMap fun f => f text) best score := by
  intro schemes
  induction schemes with
  | nil => intro best score; rfl
  | cons f rest ih =>
    intro best score
    rcases hf : f text with _ | r
    · simp only [selectGo, hf, List.filterMap_cons]
      exact ih best score
    · simp only [selectGo, hf, List.filterMap_cons, pickBest]
      by_cases hc : score < devanagariCount r
      · rw [if_pos hc, if_pos hc, ih]
      · rw [if_neg hc, if_neg hc, ih]

theorem pickBest_all_le :
    ∀ (rs : List (List Char)) (best : List Char) (score : ℕ),
    (∀ r ∈ rs, devanagariCount r ≤ score) → pickBest rs best score = best := by
  intro rs
  induction rs with
  | nil => intro best score _; rfl
  | cons r rest ih =>
    intro best score hall
    rw [pickBest, if_neg (not_lt.mpr (hall r (List.mem_cons_self r rest)))]
    exact ih best score fun r' hr' => hall r' (List.mem_cons_of_mem r hr')

theorem pickBest_max :
    ∀ (rs : List (List Char)) (best : List Char) (score : ℕ),
    (∃ r ∈ rs, score < devanagariCount r) →
    ∃ i : Fin rs.length,
      pickBest rs best score = rs.get i ∧
      score < devanagariCount (rs.get i) ∧
      (∀ j : Fin rs.length, (j : ℕ) < (i : ℕ) →
        devanagariCount (rs.get j) < devanagariCount (rs.get i)) ∧
      (∀ j : Fin rs.length, devanagariCount (rs.get j) ≤ devanagariCount (rs.get i)) := by
  intro rs
  induction rs with
  | nil => intro best score h; simp at h
  | cons r rest ih =>
    intro best score hex
    by_cases hr : score < devanagariCount r
    · rw [pickBest, if_pos hr]
      by_cases hex' : ∃ r' ∈ rest, devanagariCount r < devanagariCount r'
      · obtain ⟨i, h1, h2, h3, h4⟩ := ih r (devanagariCount r) hex'
        refine ⟨i.succ, by simpa using h1, lt_trans hr h2, ?_, ?_⟩
        · intro j hj
          induction j using Fin.cases with
          | zero => simpa using lt_of_lt_of_le h2 (le_refl _)
          | succ k => simpa using h3 k (by simpa using hj)
        · intro j
          induction j using Fin.cases with
          | zero => simpa using le_of_lt h2
          | succ k => simpa using h4 k
      · push_neg at hex'
        rw [pickBest_all_le rest r (devanagariCount r) hex']
        refine ⟨⟨0, by simp⟩, rfl, hr, ?_, ?_⟩
        · intro j hj
          simp at hj
        · intro j
          induction j using Fin.cases with
          | zero => simp
          | succ k => simpa using hex' (rest.get k) (List.get_mem rest k.1 k.2)
    · rw [pickBest, if_neg hr]
      have hex2 : ∃ r' ∈ rest, score < devanagariCount r' := by
        obtain ⟨r', hr', hlt⟩ := hex
        rcases List.mem_cons.mp hr' with h | h
        · exact absurd (h ▸ hlt) hr
        · exact ⟨r', h, hlt⟩
      obtain ⟨i, h1, h2, h3, h4⟩ := ih best score hex2
      refine ⟨i.succ, by simpa using h1, h2, ?_, ?_⟩
      · intro j hj
        induction j using Fin.cases with
        | zero => simpa using lt_of_le_of_lt (not_lt.mp hr) h2
        | succ k => simpa using h3 k (by simpa using hj)
      · intro j
        induction j using Fin.cases with
        | zero => simpa using le_trans (not_lt.mp hr) (le_of_lt h2)
        | succ k => simpa using h4 k

/-! ## Claim theorems: transliteration -/

/-- **C7** The transliteration selector returns the successful conversion
result that is the first to attain the maximum Devanagari character count —
its count strictly exceeds every earlier successful result's count and is at
least every other result's count (strict improvement is required to replace
the running best, so ties keep the earlier scheme).  If no successful result
contains any Devanagari character, or the capability is unavailable, the
original input text is returned unchanged. -/
theorem transliteration_selection
    (schemes : List (List Char → Option (List Char))) (text : List Char) :
    transliterate_to_devanagari false schemes text = text ∧
    ((∀ r ∈ schemes.filterMap fun f => f text, devanagariCount r = 0) →
      transliterate_to_devanagari true schemes text = text) ∧
    ((∃ r ∈ schemes.filterMap fun f => f text, 0 < devanagariCount r) →
      ∃ i : Fin (schemes.filterMap fun f => f text).length,
        transliterate_to_devanagari true schemes text =
          (schemes.filterMap fun f => f text).get i ∧
        0 < devanagariCount ((schemes.filterMap fun f => f text).get i) ∧
        (∀ j : Fin (schemes.filterMap fun f => f text).length, (j : ℕ) < (i : ℕ) →
          devanagariCount ((schemes.filterMap fun f => f text).get j) <
            devanagariCount ((schemes.filterMap fun f => f text).get i)) ∧
        (∀ j : Fin (schemes.filterMap fun f => f text).length,
          devanagariCount ((schemes.filterMap fun f => f text).get j) ≤
            devanagariCount ((schemes.filterMap fun f => f text).get i))) := by
  refine ⟨rfl, ?_, ?_⟩
  · intro hall
    show selectGo text schemes text 0 = text
    rw [selectGo_eq_pickBest]
    exact pickBest_all_le _ text 0 fun r hr => le_of_eq (hall r hr)
  · intro hex
    show ∃ _, selectGo text schemes text 0 = _ ∧ _
    rw [selectGo_eq_pickBest]
    exact pickBest_max _ text 0 hex

/-- Witness for C7: among `[ab, अब, अ]` as candidate results the winner is
`अब` (two Devanagari characters, strictly more than every earlier result). -/
theorem transliteration_selection_witness :
    ∃ i : Fin ((([fun t => some t, fun _ => some "अब".data,
        fun _ => some "अ".data] :
          List (List Char → Option (List Char))).filterMap
            fun f => f "ab".data).length),
      transliterate_to_devanagari true
          [fun t => some t, fun _ => some "अब".data, fun _ => some "अ".data]
          "ab".data =
        (([fun t => some t, fun _ => some "अब".data, fun _ => some "अ".data] :
          List (List Char → Option (List Char))).filterMap
            fun f => f "ab".data).get i ∧
      0 < devanagariCount ((([fun t => some t, fun _ => some "अब".data,
        fun _ => some "अ".data] :
          List (List Char → Option (List Char))).filterMap
            fun f => f "ab".data).get i) ∧
      (∀ j : Fin _, (j : ℕ) < (i : ℕ) →
        devanagariCount ((([fun t => some t, fun _ => some "अब".data,
          fun _ => some "अ".data] :
            List (List Char → Option (List Char))).filterMap
              fun f => f "ab".data).get j) <
          devanagariCount ((([fun t => some t, fun _ => some "अब".data,
            fun _ => some "अ".data] :
              List (List Char → Option (List Char))).filterMap
                fun f => f "ab".data).get i)) ∧
      (∀ j : Fin _,
        devanagariCount ((([fun t => some t, fun _ => some "अब".data,
          fun _ => some "अ".data] :
            List (List Char → Option (List Char))).filterMap
              fun f => f "ab".data).get j) ≤
          devanagariCount ((([fun t => some t, fun _ => some "अब".data,
            fun _ => some "अ".data] :
              List (List Char → Option (List Char))).filterMap
                fun f => f "ab".data).get i)) :=
  (transliteration_selection
    [fun t => some t, fun _ => some "अब".data, fun _ => some "अ".data]
    "ab".data).2.2 (by decide)

/-- **C8** The transliteration selector never raises: a scheme whose
conversion fails is skipped and iteration continues, and when every scheme's
conversion fails the original text is returned (the selector is a total
function by construction). -/
theorem transliteration_never_raises
    (schemes : List (List Char → Option (List Char))) (text : List Char) :
    ((∀ f ∈ schemes, f text = none) →
      transliterate_to_devanagari true schemes text = text) ∧
    (∀ (f : List Char → Option (List Char))
      (rest : List (List Char → Option (List Char)))
      (best : List Char) (score : ℕ), f text = none →
      selectGo text (f :: rest) best score = selectGo text rest best score) := by
  refine ⟨?_, ?_⟩
  · intro hall
    show selectGo text schemes text 0 = text
    rw [selectGo_eq_pickBest]
    have : (schemes.filterMap fun f => f text) = [] := by
      rw [List.filterMap_eq_nil_iff]
      exact hall
    rw [this]
    rfl
  · intro f rest best score hf
    simp only [selectGo, hf]

/-- Witness for C8: a scheme list whose single conversion always fails leaves
the text unchanged. -/
theorem transliteration_never_raises_witness :
    transliterate_to_devanagari true [fun _ => none] "namaste".data =
      "namaste".data :=
  (transliteration_never_raises [fun _ => none] "namaste".data).1 (by
    intro f hf
    simp only [List.mem_singleton] at hf
    subst hf
    rfl)

/-- **C10** `transliterate_segments` preserves the length of the segment list
and the `start` and `end` of every segment; only the text may change. -/
theorem transliterate_segments_frame (available : Bool)
    (schemes : List (List Char → Option (List Char))) (segments : List Segment) :
    (transliterate_segments available schemes segments).length = segments.length ∧
    (transliterate_segments available schemes segments).map Segment.start =
      segments.map Segment.start ∧
    (transliterate_segments available schemes segments).map Segment.«end» =
      segments.map Segment.«end» := by
  refine ⟨by simp [transliterate_segments], ?_, ?_⟩ <;>
    simp [transliterate_segments, List.map_map, Function.comp]

theorem parseBlocks_short_skip (b : List Char) (rest : List (List Char))
    (h : (blockLines b).length < 3) :
    parseBlocks (b :: rest) = parseBlocks rest := by
  rcases hb : blockLines b with _ | ⟨l0, _ | ⟨l1, _ | ⟨l2, ls⟩⟩⟩
  · simp [parseBlocks, hb]
  · simp [parseBlocks, hb]
  · simp [parseBlocks, hb]
  · rw [hb] at h
    simp at h
    omega

theorem parseBlocks_nomatch_skip (b : List Char) (rest : List (List Char))
    (l0 l1 l2 : List Char) (ls : List (List Char))
    (hb : blockLines b = l0 :: l1 :: l2 :: ls)
    (ht : timingMatch l1 = none) :
    parseBlocks (b :: rest) = parseBlocks rest := by
  simp [parseBlocks, hb, ht]

theorem parseBlocks_all_skip :
    ∀ blocks : List (List Char),
    (∀ b ∈ blocks, (blockLines b).length < 3 ∨
      timingMatch ((blockLines b).getD 1 []) = none) →
    parseBlocks blocks = some [] := by
  intro blocks
  induction blocks with
  | nil => intro _; rfl
  | cons b rest ih =>
    intro hall
    have hrest := ih fun b' hb' => hall b' (List.mem_cons_of_mem b hb')
    rcases hall b (List.mem_cons_self b rest) with h | h
    · rw [parseBlocks_short_skip b rest h, hrest]
    · rcases hb : blockLines b with _ | ⟨l0, _ | ⟨l1, _ | ⟨l2, ls⟩⟩⟩
      · simp [parseBlocks, hb, hrest]
      · simp [parseBlocks, hb, hrest]
      · simp [parseBlocks, hb, hrest]
      · rw [hb] at h
        simp only [List.getD_cons_succ, List.getD_cons_zero] at h
        rw [parseBlocks_nomatch_skip b rest l0 l1 l2 ls hb h, hrest]

/-! ## Claim theorems: parser leniency -/

/-- **C5** The caption parser silently skips any block with fewer than 3
lines and any block whose second line does not match the `<token> -->
<token>` shape; a document in which no block matches yields `some []` (an
empty list, not an error), and in particular the document consisting of
exactly one 2-line block parses to the empty list. -/
theorem parser_leniency :
    (∀ (b : List Char) (rest : List (List Char)),
      (blockLines b).length < 3 → parseBlocks (b :: rest) = parseBlocks rest) ∧
    (∀ (b : List Char) (rest : List (List Char)) (l0 l1 l2 : List Char)
      (ls : List (List Char)), blockLines b = l0 :: l1 :: l2 :: ls →
      timingMatch l1 = none → parseBlocks (b :: rest) = parseBlocks rest) ∧
    (∀ content : List Char,
      (∀ b ∈ splitBlocks (pyStrip content), (blockLines b).length < 3 ∨
        timingMatch ((blockLines b).getD 1 []) = none) →
      parse_srt_file content = some []) ∧
    parse_srt_file "1\n00:00:00,000 --> 00:00:01,000".data = some [] := by
  refine ⟨parseBlocks_short_skip, parseBlocks_nomatch_skip, ?_, by decide⟩
  intro content h
  exact parseBlocks_all_skip _ h

/-- Witness for C5: a document with no matching block parses to the empty
list. -/
theorem parser_leniency_witness :
    parse_srt_file "hello world".data = some [] :=
  parser_leniency.2.2.1 "hello world".data (by decide)

/-! ## Claim theorems: timestamp error propagation -/

/-- **C6** `parse_srt_timestamp` fails exactly when the token does not split
into the `HH:MM:SS,mmm` shape (one comma, three colon fields) or some numeric
field is not an integer; and this failure is the only error that escapes
`parse_srt_file`: a block whose timing line matches the `<token> --> <token>`
shape but whose timestamp token fails to parse makes the whole parse raise,
and conversely a raising parse always contains such a block. -/
theorem timestamp_error_propagation :
    (∀ ts : List Char, parse_srt_timestamp ts = none ↔
      ¬ (tsShape ts ∧ ∀ f ∈ tsFields ts, pyInt f ≠ none)) ∧
    (∀ (b : List Char) (rest : List (List Char)) (l0 l1 l2 : List Char)
      (ls : List (List Char)) (sts ets : List Char),
      blockLines b = l0 :: l1 :: l2 :: ls →
      timingMatch l1 = some (sts, ets) →
      (parse_srt_timestamp sts = none ∨ parse_srt_timestamp ets = none) →
      parseBlocks (b :: rest) = none) ∧
    (∀ blocks : List (List Char), parseBlocks blocks = none →
      ∃ b ∈ blocks, ∃ (l0 l1 l2 : List Char) (ls : List (List Char))
        (sts ets : List Char),
        blockLines b = l0 :: l1 :: l2 :: ls ∧
        timingMatch l1 = some (sts, ets) ∧
        (parse_srt_timestamp sts = none ∨ parse_srt_timestamp ets = none)) := by
  refine ⟨?_, ?_, ?_⟩
  · intro ts
    rcases h1 : splitOnChar ',' ts with _ | ⟨tp, _ | ⟨mp, _ | ⟨x, xs⟩⟩⟩
    · simp [parse_srt_timestamp, h1, tsShape]
    · simp [parse_srt_timestamp, h1, tsShape]
    · rcases h2 : splitOnChar ':' tp with _ | ⟨a, _ | ⟨b, _ | ⟨c, _ | ⟨d, ds⟩⟩⟩⟩
      · simp [parse_srt_timestamp, h1, h2, tsShape]
      · simp [parse_srt_timestamp, h1, h2, tsShape]
      · simp [parse_srt_timestamp, h1, h2, tsShape]
      · rcases ha : pyInt a with _ | va <;> rcases hb : pyInt b with _ | vb <;>
          rcases hc : pyInt c with _ | vc <;> rcases hm : pyInt mp with _ | vm <;>
          simp [parse_srt_timestamp, h1, h2, tsShape, tsFields, ha, hb, hc, hm]
      · simp [parse_srt_timestamp, h1, h2, tsShape]
    · simp [parse_srt_timestamp, h1, tsShape]
  · intro b rest l0 l1 l2 ls sts ets hb ht herr
    rcases herr with h | h
    · rcases he : parse_srt_timestamp ets with _ | ve <;>
        simp [parseBlocks, hb, ht, h, he]
    · rcases hs : parse_srt_timestamp sts with _ | vs <;>
        simp [parseBlocks, hb, ht, h, hs]
  · intro blocks
    induction blocks with
    | nil => intro h; simp [parseBlocks] at h
    | cons b rest ih =>
      intro h
      rcases hb : blockLines b with _ | ⟨l0, _ | ⟨l1, _ | ⟨l2, ls⟩⟩⟩
      · rw [parseBlocks, hb] at h
        obtain ⟨b', hmem, hrest⟩ := ih h
        exact ⟨b', List.mem_cons_of_mem b hmem, hrest⟩
      · rw [parseBlocks, hb] at h
        obtain ⟨b', hmem, hrest⟩ := ih h
        exact ⟨b', List.mem_cons_of_mem b hmem, hrest⟩
      · rw [parseBlocks, hb] at h
        obtain ⟨b', hmem, hrest⟩ := ih h
        exact ⟨b', List.mem_cons_of_mem b hmem, hrest⟩
      · rcases ht : timingMatch l1 with _ | ⟨sts, ets⟩
        · simp only [parseBlocks, hb, ht] at h
          obtain ⟨b', hmem, hrest⟩ := ih h
          exact ⟨b', List.mem_cons_of_mem b hmem, hrest⟩
        · rcases hs : parse_srt_timestamp sts with _ | vs
          · exact ⟨b, List.mem_cons_self b rest, l0, l1, l2, ls, sts, ets,
              hb, ht, Or.inl hs⟩
          · rcases he : parse_srt_timestamp ets with _ | ve
            · exact ⟨b, List.mem_cons_self b rest, l0, l1, l2, ls, sts, ets,
                hb, ht, Or.inr he⟩
            · simp only [parseBlocks, hb, ht, hs, he,
                Option.map_eq_none'] at h
              obtain ⟨b', hmem, hrest⟩ := ih h
              exact ⟨b', List.mem_cons_of_mem b hmem, hrest⟩

/-- Witness for C6: a timing line matching the arrow shape whose start token
has a non-numeric seconds field makes the block-level parse raise. -/
theorem timestamp_error_propagation_witness :
    parseBlocks ["1\n00:00:aa,000 --> 00:00:01,000\nhello".data] = none :=
  timestamp_error_propagation.2.1 "1\n00:00:aa,000 --> 00:00:01,000\nhello".data
    [] "1".data "00:00:aa,000 --> 00:00:01,000".data "hello".data []
    "00:00:aa,000".data "00:00:01,000".data (by decide) (by decide)
    (Or.inl (by decide))

/-! ## Helper lemmas: timestamp codec -/

theorem floor_nat_div_nat (a b : ℕ) (hb : 0 < b) :
    ⌊(a : ℚ) / (b : ℚ)⌋ = ((a / b : ℕ) : ℤ) := by
  have hbq : (0 : ℚ) < (b : ℚ) := by exact_mod_cast hb
  rw [Int.floor_eq_iff]
  constructor
  · rw [Int.cast_natCast, le_div_iff₀ hbq]
    exact_mod_cast Nat.div_mul_le_self a b
  · rw [Int.cast_natCast, div_lt_iff₀ hbq]
    have : a < (a / b + 1) * b := by
      have h1 := Nat.div_add_mod a b
      have h2 := Nat.mod_lt a hb
      nlinarith [Nat.div_mul_le_self a b]
    exact_mod_cast this

theorem natToDigitsAux_eq (fuel : ℕ) :
    ∀ n : ℕ, n ≤ fuel →
    natToDigitsAux fuel n = ((Nat.digits 10 n).map digitChar).reverse := by
  induction fuel with
  | zero =>
    intro n hn
    interval_cases n
    simp [natToDigitsAux]
  | succ fuel ih =>
    intro n hn
    by_cases h0 : n = 0
    · subst h0; simp [natToDigitsAux]
    · rw [natToDigitsAux, if_neg h0,
        ih (n / 10) (by omega),
        Nat.digits_def' (by norm_num : (1:ℕ) < 10) (Nat.pos_of_ne_zero h0)]
      simp

theorem natToDigits_eq (n : ℕ) (h : n ≠ 0) :
    natToDigits n = ((Nat.digits 10 n).map digitChar).reverse := by
  rw [natToDigits, if_neg h, natToDigitsAux_eq n n (le_refl n)]

theorem digitChar_isDigit (d : ℕ) (h : d < 10) : (digitChar d).isDigit = true := by
  interval_cases d <;> decide

theorem digitChar_val (d : ℕ) (h : d < 10) : (digitChar d).toNat - 48 = d := by
  interval_cases d <;> decide

theorem natToDigits_all_isDigit (n : ℕ) :
    ∀ c ∈ natToDigits n, c.isDigit = true := by
  by_cases h0 : n = 0
  · subst h0; intro c hc; simp [natToDigits] at hc; subst hc; decide
  · rw [natToDigits_eq n h0]
    intro c hc
    simp only [List.mem_reverse, List.mem_map] at hc
    obtain ⟨d, hd, rfl⟩ := hc
    exact digitChar_isDigit d (Nat.digits_lt_base (by norm_num) hd)

theorem natToDigits_ne_nil (n : ℕ) : natToDigits n ≠ [] := by
  by_cases h0 : n = 0
  · subst h0; simp [natToDigits]
  · rw [natToDigits_eq n h0]
    simp [Nat.digits_ne_nil_iff_ne_zero.mpr h0]

theorem valAux_append_lemma (a : ℕ) (l1 l2 : List Char) :
    valAux a (l1 ++ l2) = valAux (valAux a l1) l2 := by
  simp [valAux, List.foldl_append]

theorem valAux_rev_map (l : List ℕ) (h : ∀ d ∈ l, d < 10) :
    ∀ a : ℕ, valAux a ((l.map digitChar).reverse) =
      a * 10 ^ l.length + Nat.ofDigits 10 l := by
  induction l with
  | nil => intro a; simp [valAux, Nat.ofDigits_nil]
  | cons d l ih =>
    intro a
    have hd : d < 10 := h d (List.mem_cons_self d l)
    rw [List.map_cons, List.reverse_cons, valAux_append_lemma,
      ih fun d hd => h d (List.mem_cons_of_mem _ hd)]
    show 10 * (a * 10 ^ l.length + Nat.ofDigits 10 l) + ((digitChar d).toNat - 48) = _
    rw [digitChar_val d hd, Nat.ofDigits_cons, List.length_cons, pow_succ]
    ring

theorem valAux_natToDigits (n : ℕ) : valAux 0 (natToDigits n) = n := by
  by_cases h0 : n = 0
  · subst h0; decide
  · rw [natToDigits_eq n h0,
      valAux_rev_map _ (fun d hd => Nat.digits_lt_base (by norm_num) hd) 0,
      Nat.ofDigits_digits]
    ring

theorem dropWhile_all_false {p : Char → Bool} :
    ∀ l : List Char, (∀ c ∈ l, p c = false) → l.dropWhile p = l := by
  intro l
  induction l with
  | nil => intro _; rfl
  | cons c cs ih =>
    intro h
    rw [List.dropWhile_cons, h c (List.mem_cons_self c cs)]
    simp

theorem pyStrip_no_space (l : List Char)
    (h : ∀ c ∈ l, isPySpace c = false) : pyStrip l = l := by
  show pyRstrip (pyLstrip l) = l
  rw [pyLstrip, dropWhile_all_false l h, pyRstrip,
    dropWhile_all_false l.reverse fun c hc => h c (List.mem_reverse.mp hc),
    List.reverse_reverse]

theorem isPySpace_of_isDigit (c : Char) (h : c.isDigit = true) :
    isPySpace c = false := by
  by_contra hb
  simp only [Bool.not_eq_false, isPySpace, Bool.or_eq_true, beq_iff_eq] at hb
  rcases hb with ((((rfl | rfl) | rfl) | rfl) | rfl) | rfl <;> simp at h

theorem bne_dash_of_isDigit (c : Char) (h : c.isDigit = true) :
    (c == '-') = false := by
  by_contra hb
  simp only [Bool.not_eq_false, beq_iff_eq] at hb
  subst hb
  simp at h

theorem bne_plus_of_isDigit (c : Char) (h : c.isDigit = true) :
    (c == '+') = false := by
  by_contra hb
  simp only [Bool.not_eq_false, beq_iff_eq] at hb
  subst hb
  simp at h

theorem pyInt_digits (l : List Char) (hne : l ≠ [])
    (hdig : ∀ c ∈ l, c.isDigit = true) :
    pyInt l = some ((valAux 0 l : ℕ) : ℤ) := by
  have hstrip : pyStrip l = l :=
    pyStrip_no_space l fun c hc => isPySpace_of_isDigit c (hdig c hc)
  rcases l with _ | ⟨c, cs⟩
  · exact absurd rfl hne
  · have hc := hdig c (List.mem_cons_self c cs)
    simp only [pyInt, hstrip, bne_dash_of_isDigit c hc, bne_plus_of_isDigit c hc,
      Bool.false_eq_true, if_false]
    rw [if_pos (List.all_eq_true.mpr hdig)]

theorem valAux_replicate_zero : ∀ k : ℕ, valAux 0 (List.replicate k '0') = 0 := by
  intro k
  induction k with
  | zero => rfl
  | succ k ih => simpa [List.replicate_succ, valAux] using ih

theorem valAux_zpad (w n : ℕ) : valAux 0 (zpad w (natToDigits n)) = n := by
  rw [zpad, valAux_append_lemma, valAux_replicate_zero, valAux_natToDigits]

theorem zpad_all_isDigit (w : ℕ) (l : List Char)
    (h : ∀ c ∈ l, c.isDigit = true) : ∀ c ∈ zpad w l, c.isDigit = true := by
  intro c hc
  rcases List.mem_append.mp hc with hc | hc
  · rw [List.eq_of_mem_replicate hc]; decide
  · exact h c hc

theorem zpad_ne_nil (w : ℕ) (l : List Char) (h : l ≠ []) : zpad w l ≠ [] := by
  simp [zpad, h]

theorem pyInt_zpad (w n : ℕ) : pyInt (zpad w (natToDigits n)) = some (n : ℤ) := by
  rw [pyInt_digits _ (zpad_ne_nil _ _ (natToDigits_ne_nil n))
    (zpad_all_isDigit _ _ (natToDigits_all_isDigit n)), valAux_zpad]

theorem splitOnChar_no_sep (sep : Char) :
    ∀ l : List Char, sep ∉ l → splitOnChar sep l = [l] := by
  intro l
  induction l with
  | nil => intro _; rfl
  | cons c cs ih =>
    intro h
    have hc : (c == sep) = false := by
      simp only [beq_eq_false_iff_ne]
      exact fun hcc => h (hcc ▸ List.mem_cons_self c cs)
    rw [splitOnChar, if_neg (by simp [hc]), ih fun hm => h (List.mem_cons_of_mem c hm)]

theorem splitOnChar_append_sep (sep : Char) :
    ∀ (A B : List Char), sep ∉ A →
    splitOnChar sep (A ++ sep :: B) = A :: splitOnChar sep B := by
  intro A
  induction A with
  | nil =>
    intro B _
    simp [splitOnChar]
  | cons a as ih =>
    intro B h
    have ha : (a == sep) = false := by
      simp only [beq_eq_false_iff_ne]
      exact fun haa => h (haa ▸ List.mem_cons_self a as)
    rw [List.cons_append, splitOnChar, if_neg (by simp [ha]),
      ih B fun hm => h (List.mem_cons_of_mem a hm)]

theorem not_mem_of_all_isDigit (l : List Char) (c0 : Char)
    (h : ∀ c ∈ l, c.isDigit = true) (hc0 : c0.isDigit = false) : c0 ∉ l :=
  fun hm => by rw [h c0 hm] at hc0; simp at hc0

theorem parse_formatted (H M S MS : ℕ) :
    parse_srt_timestamp (zpad 2 (natToDigits H) ++ ':' :: (zpad 2 (natToDigits M)
      ++ ':' :: (zpad 2 (natToDigits S) ++ ',' :: zpad 3 (natToDigits MS)))) =
      some ((H : ℚ) * 3600 + (M : ℚ) * 60 + (S : ℚ) + (MS : ℚ) / 1000) := by
  have dH := zpad_all_isDigit 2 _ (natToDigits_all_isDigit H)
  have dM := zpad_all_isDigit 2 _ (natToDigits_all_isDigit M)
  have dS := zpad_all_isDigit 2 _ (natToDigits_all_isDigit S)
  have dMS := zpad_all_isDigit 3 _ (natToDigits_all_isDigit MS)
  have hnocomma : ',' ∉ zpad 2 (natToDigits H) ++ ':' ::
      (zpad 2 (natToDigits M) ++ ':' :: zpad 2 (natToDigits S)) := by
    intro hm
    simp only [List.mem_append, List.mem_cons] at hm
    rcases hm with hm | hm | hm | hm | hm
    · exact absurd (dH ',' hm) (by decide)
    · exact absurd hm (by decide)
    · exact absurd (dM ',' hm) (by decide)
    · exact absurd hm (by decide)
    · exact absurd (dS ',' hm) (by decide)
  have hshape : zpad 2 (natToDigits H) ++ ':' :: (zpad 2 (natToDigits M)
      ++ ':' :: (zpad 2 (natToDigits S) ++ ',' :: zpad 3 (natToDigits MS))) =
      (zpad 2 (natToDigits H) ++ ':' :: (zpad 2 (natToDigits M) ++ ':' ::
        zpad 2 (natToDigits S))) ++ ',' :: zpad 3 (natToDigits MS) := by
    simp
  have hsplit1 : splitOnChar ',' (zpad 2 (natToDigits H) ++ ':' ::
      (zpad 2 (natToDigits M) ++ ':' :: (zpad 2 (natToDigits S) ++
        ',' :: zpad 3 (natToDigits MS)))) =
      [zpad 2 (natToDigits H) ++ ':' :: (zpad 2 (natToDigits M) ++ ':' ::
        zpad 2 (natToDigits S)), zpad 3 (natToDigits MS)] := by
    rw [hshape, splitOnChar_append_sep ',' _ _ hnocomma,
      splitOnChar_no_sep ',' _ (not_mem_of_all_isDigit _ ',' dMS (by decide))]
  have hsplit2 : splitOnChar ':' (zpad 2 (natToDigits H) ++ ':' ::
      (zpad 2 (natToDigits M) ++ ':' :: zpad 2 (natToDigits S))) =
      [zpad 2 (natToDigits H), zpad 2 (natToDigits M), zpad 2 (natToDigits S)] := by
    rw [splitOnChar_append_sep ':' _ _
        (not_mem_of_all_isDigit _ ':' dH (by decide)),
      splitOnChar_append_sep ':' _ _
        (not_mem_of_all_isDigit _ ':' dM (by decide)),
      splitOnChar_no_sep ':' _ (not_mem_of_all_isDigit _ ':' dS (by decide))]
  rw [parse_srt_timestamp, hsplit1]
  simp only [hsplit2, pyInt_zpad]
  congr 1

theorem pyFmtInt_ofNat (w : ℕ) (n : ℤ) (h : 0 ≤ n) :
    pyFmtInt w n = zpad w (natToDigits n.toNat) := if_neg (not_lt.mpr h)

theorem pyMod_nonneg (a b : ℚ) (hb : 0 < b) : 0 ≤ pyMod a b := by
  have h := Int.sub_floor_div_mul_nonneg a hb
  rw [pyMod, mul_comm]
  exact h

theorem pyMod_lt (a b : ℚ) (hb : 0 < b) : pyMod a b < b := by
  have h := Int.sub_floor_div_mul_lt a hb
  rw [pyMod, mul_comm]
  exact h

theorem pyTrunc_of_nonneg (q : ℚ) (h : 0 ≤ q) : pyTrunc q = ⌊q⌋ :=
  if_neg (not_lt.mpr h)

theorem pyRound_intCast (k : ℤ) : pyRound (k : ℚ) = k := by
  rw [pyRound, Int.floor_intCast]
  rw [if_pos (by norm_num)]

theorem pyRound_natCast (k : ℕ) : pyRound (k : ℚ) = (k : ℤ) := by
  have := pyRound_intCast (k : ℤ)
  push_cast at this
  exact this

theorem pyRound_nonneg (q : ℚ) (h : 0 ≤ q) : 0 ≤ pyRound q := by
  have hf := Int.floor_nonneg.mpr h
  rw [pyRound]
  split_ifs <;> omega

theorem natToDigits_length_le (n k : ℕ) (hk : 0 < k) (h : n < 10 ^ k) :
    (natToDigits n).length ≤ k := by
  by_cases h0 : n = 0
  · subst h0
    simpa [natToDigits] using hk
  · rw [natToDigits_eq n h0]
    rw [List.length_reverse, List.length_map]
    rw [Nat.digits_len 10 n (by norm_num) h0]
    have hlog := (Nat.lt_pow_iff_log_lt (by norm_num) h0).mp h
    omega

theorem zpad_length_eq (w : ℕ) (l : List Char) (h : l.length ≤ w) :
    (zpad w l).length = w := by
  simp only [zpad, List.length_append, List.length_replicate]
  omega

theorem zpad_length_ge (w : ℕ) (l : List Char) : w ≤ (zpad w l).length := by
  simp only [zpad, List.length_append, List.length_replicate]
  omega

theorem parse_format_millis (n : ℕ) :
    parse_srt_timestamp (format_srt_timestamp ((n : ℚ) / 1000)) =
      some ((n : ℚ) / 1000) := by
  have h1 : ⌊(n : ℚ) / 1000 / 3600⌋ = ((n / 3600000 : ℕ) : ℤ) := by
    rw [div_div, show (1000 : ℚ) * 3600 = ((3600000 : ℕ) : ℚ) by norm_num]
    exact floor_nat_div_nat n 3600000 (by norm_num)
  have hdm1 : (3600000 : ℚ) * ((n / 3600000 : ℕ) : ℚ) + ((n % 3600000 : ℕ) : ℚ)
      = (n : ℚ) := by
    exact_mod_cast Nat.div_add_mod n 3600000
  have hpm3600 : pyMod ((n : ℚ) / 1000) 3600 = ((n % 3600000 : ℕ) : ℚ) / 1000 := by
    rw [pyMod, h1, Int.cast_natCast,
      div_sub' _ _ _ (by norm_num : (1000 : ℚ) ≠ 0),
      div_eq_div_iff (by norm_num) (by norm_num)]
    ring_nf
    ring_nf at hdm1
    linarith [hdm1]
  have h2 : ⌊pyMod ((n : ℚ) / 1000) 3600 / 60⌋ = ((n % 3600000 / 60000 : ℕ) : ℤ) := by
    rw [hpm3600, div_div, show (1000 : ℚ) * 60 = ((60000 : ℕ) : ℚ) by norm_num]
    exact floor_nat_div_nat (n % 3600000) 60000 (by norm_num)
  have h60 : ⌊(n : ℚ) / 1000 / 60⌋ = ((n / 60000 : ℕ) : ℤ) := by
    rw [div_div, show (1000 : ℚ) * 60 = ((60000 : ℕ) : ℚ) by norm_num]
    exact floor_nat_div_nat n 60000 (by norm_num)
  have hdm2 : (60000 : ℚ) * ((n / 60000 : ℕ) : ℚ) + ((n % 60000 : ℕ) : ℚ)
      = (n : ℚ) := by
    exact_mod_cast Nat.div_add_mod n 60000
  have hpm60 : pyMod ((n : ℚ) / 1000) 60 = ((n % 60000 : ℕ) : ℚ) / 1000 := by
    rw [pyMod, h60, Int.cast_natCast,
      div_sub' _ _ _ (by norm_num : (1000 : ℚ) ≠ 0),
      div_eq_div_iff (by norm_num) (by norm_num)]
    ring_nf
    ring_nf at hdm2
    linarith [hdm2]
  have h3 : pyTrunc (pyMod ((n : ℚ) / 1000) 60) = ((n % 60000 / 1000 : ℕ) : ℤ) := by
    rw [hpm60, pyTrunc_of_nonneg _ (by positivity)]
    exact floor_nat_div_nat (n % 60000) 1000 (by norm_num)
  have hK : pyTrunc ((n : ℚ) / 1000) = ((n / 1000 : ℕ) : ℤ) := by
    rw [pyTrunc_of_nonneg _ (by positivity)]
    exact floor_nat_div_nat n 1000 (by norm_num)
  have hdm3 : (1000 : ℚ) * ((n / 1000 : ℕ) : ℚ) + ((n % 1000 : ℕ) : ℚ)
      = (n : ℚ) := by
    exact_mod_cast Nat.div_add_mod n 1000
  have h4 : pyRound (((n : ℚ) / 1000 - (pyTrunc ((n : ℚ) / 1000) : ℚ)) * 1000) =
      ((n % 1000 : ℕ) : ℤ) := by
    rw [hK]
    have harg : ((n : ℚ) / 1000 - (((n / 1000 : ℕ) : ℤ) : ℚ)) * 1000 =
        ((n % 1000 : ℕ) : ℚ) := by
      rw [Int.cast_natCast, sub_mul,
        div_mul_cancel₀ _ (by norm_num : (1000 : ℚ) ≠ 0)]
      linarith [hdm3]
    rw [harg]
    exact pyRound_natCast (n % 1000)
  simp only [format_srt_timestamp]
  rw [h1, h2, h3, h4,
    pyFmtInt_ofNat 2 _ (Int.natCast_nonneg _),
    pyFmtInt_ofNat 2 _ (Int.natCast_nonneg _),
    pyFmtInt_ofNat 2 _ (Int.natCast_nonneg _),
    pyFmtInt_ofNat 3 _ (Int.natCast_nonneg _)]
  simp only [Int.toNat_natCast, List.cons_append, List.append_assoc]
  rw [parse_formatted]
  congr 1
  have harith : 3600000 * (n / 3600000) + 60000 * (n % 3600000 / 60000) +
      1000 * (n % 60000 / 1000) + n % 1000 = n := by omega
  have hc : (3600000 : ℚ) * ((n / 3600000 : ℕ) : ℚ) +
      60000 * ((n % 3600000 / 60000 : ℕ) : ℚ) +
      1000 * ((n % 60000 / 1000 : ℕ) : ℚ) + ((n % 1000 : ℕ) : ℚ) = (n : ℚ) := by
    exact_mod_cast harith
  rw [add_div' _ _ _ (by norm_num : (1000 : ℚ) ≠ 0),
    div_eq_div_iff (by norm_num) (by norm_num)]
  ring_nf
  ring_nf at hc
  linarith [hc]

theorem srt_split_comma (H M S MS : ℕ) :
    splitOnChar ',' (zpad 2 (natToDigits H) ++ ':' :: (zpad 2 (natToDigits M)
      ++ ':' :: (zpad 2 (natToDigits S) ++ ',' :: zpad 3 (natToDigits MS)))) =
    [zpad 2 (natToDigits H) ++ ':' :: (zpad 2 (natToDigits M) ++ ':' ::
      zpad 2 (natToDigits S)), zpad 3 (natToDigits MS)] := by
  have dH := zpad_all_isDigit 2 _ (natToDigits_all_isDigit H)
  have dM := zpad_all_isDigit 2 _ (natToDigits_all_isDigit M)
  have dS := zpad_all_isDigit 2 _ (natToDigits_all_isDigit S)
  have dMS := zpad_all_isDigit 3 _ (natToDigits_all_isDigit MS)
  have hnocomma : ',' ∉ zpad 2 (natToDigits H) ++ ':' ::
      (zpad 2 (natToDigits M) ++ ':' :: zpad 2 (natToDigits S)) := by
    intro hm
    simp only [List.mem_append, List.mem_cons] at hm
    rcases hm with hm | hm | hm | hm | hm
    · exact absurd (dH ',' hm) (by decide)
    · exact absurd hm (by decide)
    · exact absurd (dM ',' hm) (by decide)
    · exact absurd hm (by decide)
    · exact absurd (dS ',' hm) (by decide)
  have hshape : zpad 2 (natToDigits H) ++ ':' :: (zpad 2 (natToDigits M)
      ++ ':' :: (zpad 2 (natToDigits S) ++ ',' :: zpad 3 (natToDigits MS))) =
      (zpad 2 (natToDigits H) ++ ':' :: (zpad 2 (natToDigits M) ++ ':' ::
        zpad 2 (natToDigits S))) ++ ',' :: zpad 3 (natToDigits MS) := by
    simp
  rw [hshape, splitOnChar_append_sep ',' _ _ hnocomma,
    splitOnChar_no_sep ',' _ (not_mem_of_all_isDigit _ ',' dMS (by decide))]

theorem srt_split_colon (H M S : ℕ) :
    splitOnChar ':' (zpad 2 (natToDigits H) ++ ':' :: (zpad 2 (natToDigits M)
      ++ ':' :: zpad 2 (natToDigits S))) =
    [zpad 2 (natToDigits H), zpad 2 (natToDigits M), zpad 2 (natToDigits S)] := by
  have dH := zpad_all_isDigit 2 _ (natToDigits_all_isDigit H)
  have dM := zpad_all_isDigit 2 _ (natToDigits_all_isDigit M)
  have dS := zpad_all_isDigit 2 _ (natToDigits_all_isDigit S)
  rw [splitOnChar_append_sep ':' _ _
      (not_mem_of_all_isDigit _ ':' dH (by decide)),
    splitOnChar_append_sep ':' _ _
      (not_mem_of_all_isDigit _ ':' dM (by decide)),
    splitOnChar_no_sep ':' _ (not_mem_of_all_isDigit _ ':' dS (by decide))]

theorem srtShapeCheck_of_fields (H M S MS : ℕ)
    (hM : M ≤ 59) (hS : S ≤ 59) (hMS : MS ≤ 999) :
    srtShapeCheck (zpad 2 (natToDigits H) ++ ':' :: (zpad 2 (natToDigits M)
      ++ ':' :: (zpad 2 (natToDigits S) ++ ',' :: zpad 3 (natToDigits MS)))) =
      true := by
  rw [srtShapeCheck, srt_split_comma]
  simp only [srt_split_colon]
  have lM : (zpad 2 (natToDigits M)).length = 2 :=
    zpad_length_eq 2 _ (natToDigits_length_le M 2 (by norm_num) (by omega))
  have lS : (zpad 2 (natToDigits S)).length = 2 :=
    zpad_length_eq 2 _ (natToDigits_length_le S 2 (by norm_num) (by omega))
  have lMS : (zpad 3 (natToDigits MS)).length = 3 :=
    zpad_length_eq 3 _ (natToDigits_length_le MS 3 (by norm_num) (by omega))
  simp only [Bool.and_eq_true, beq_iff_eq, decide_eq_true_eq, List.all_eq_true]
  repeat' apply And.intro
  all_goals first
    | exact zpad_length_ge 2 _
    | exact lM
    | exact lS
    | exact lMS
    | exact fun c hc => zpad_all_isDigit _ _ (natToDigits_all_isDigit _) c hc

theorem floor_eval (q : ℚ) (z : ℤ) (h1 : (z : ℚ) ≤ q) (h2 : q < z + 1) :
    ⌊q⌋ = z := by
  rw [Int.floor_eq_iff]
  exact ⟨h1, by exact_mod_cast h2⟩

theorem pyRound_eval_up (q : ℚ) (f : ℤ) (hf : ⌊q⌋ = f) (h : 1 / 2 < q - f) :
    pyRound q = f + 1 := by
  rw [pyRound, hf, if_neg (by linarith), if_pos h]

theorem pyRound_eval_half_odd (q : ℚ) (f : ℤ) (hf : ⌊q⌋ = f)
    (h : q - f = 1 / 2) (hodd : f % 2 = 1) : pyRound q = f + 1 := by
  rw [pyRound, hf, h, if_neg (lt_irrefl _), if_neg (lt_irrefl _),
    if_neg (by omega)]

theorem format_srt_shape_all (q : ℚ) (hq : 0 ≤ q)
    (hms : pyRound ((q - (pyTrunc q : ℚ)) * 1000) ≤ 999) :
    srtShapeCheck (format_srt_timestamp q) = true := by
  have hH0 : 0 ≤ ⌊q / 3600⌋ := Int.floor_nonneg.mpr (by positivity)
  have hM0 : 0 ≤ ⌊pyMod q 3600 / 60⌋ :=
    Int.floor_nonneg.mpr
      (div_nonneg (pyMod_nonneg q 3600 (by norm_num)) (by norm_num))
  have hM59 : ⌊pyMod q 3600 / 60⌋ < 60 := by
    rw [Int.floor_lt]
    rw [div_lt_iff₀ (by norm_num : (0 : ℚ) < 60)]
    have := pyMod_lt q 3600 (by norm_num)
    push_cast
    linarith
  have hS0 : 0 ≤ pyTrunc (pyMod q 60) := by
    rw [pyTrunc_of_nonneg _ (pyMod_nonneg q 60 (by norm_num))]
    exact Int.floor_nonneg.mpr (pyMod_nonneg q 60 (by norm_num))
  have hS59 : pyTrunc (pyMod q 60) < 60 := by
    rw [pyTrunc_of_nonneg _ (pyMod_nonneg q 60 (by norm_num))]
    rw [Int.floor_lt]
    have := pyMod_lt q 60 (by norm_num)
    push_cast
    linarith
  have hMS0 : 0 ≤ pyRound ((q - (pyTrunc q : ℚ)) * 1000) := by
    apply pyRound_nonneg
    rw [pyTrunc_of_nonneg q hq]
    have := Int.floor_le q
    nlinarith
  simp only [format_srt_timestamp]
  rw [pyFmtInt_ofNat 2 _ hH0, pyFmtInt_ofNat 2 _ hM0, pyFmtInt_ofNat 2 _ hS0,
    pyFmtInt_ofNat 3 _ hMS0]
  simp only [List.cons_append, List.append_assoc]
  exact srtShapeCheck_of_fields _ _ _ _ (by omega) (by omega) (by omega)

theorem format_srt_scenario :
    format_srt_timestamp (36614567 / 10000) = "01:01:01,457".data := by
  have hf1 : ⌊(36614567 : ℚ) / 10000 / 3600⌋ = 1 :=
    floor_eval _ 1 (by norm_num) (by norm_num)
  have hmod3600 : pyMod ((36614567 : ℚ) / 10000) 3600 = 614567 / 10000 := by
    rw [pyMod, hf1]
    norm_num
  have hf2 : ⌊pyMod ((36614567 : ℚ) / 10000) 3600 / 60⌋ = 1 := by
    rw [hmod3600]
    exact floor_eval _ 1 (by norm_num) (by norm_num)
  have hf60 : ⌊(36614567 : ℚ) / 10000 / 60⌋ = 61 :=
    floor_eval _ 61 (by norm_num) (by norm_num)
  have hmod60 : pyMod ((36614567 : ℚ) / 10000) 60 = 14567 / 10000 := by
    rw [pyMod, hf60]
    norm_num
  have hs_ : pyTrunc (pyMod ((36614567 : ℚ) / 10000) 60) = 1 := by
    rw [hmod60, pyTrunc_of_nonneg _ (by norm_num)]
    exact floor_eval _ 1 (by norm_num) (by norm_num)
  have ht_ : pyTrunc ((36614567 : ℚ) / 10000) = 3661 := by
    rw [pyTrunc_of_nonneg _ (by norm_num)]
    exact floor_eval _ 3661 (by norm_num) (by norm_num)
  have hms_ : pyRound (((36614567 : ℚ) / 10000 -
      (pyTrunc ((36614567 : ℚ) / 10000) : ℚ)) * 1000) = 457 := by
    rw [ht_, show ((36614567 : ℚ) / 10000 - ((3661 : ℤ) : ℚ)) * 1000 = 4567 / 10
      by norm_num]
    rw [pyRound_eval_up _ 456 (floor_eval _ 456 (by norm_num) (by norm_num))
      (by norm_num)]
    norm_num
  simp only [format_srt_timestamp]
  rw [hf1, hf2, hs_, hms_]
  decide

theorem format_srt_ms_overflow :
    srtShapeCheck (format_srt_timestamp (1999 / 2000)) = false ∧
    format_srt_timestamp (1999 / 2000) = "00:00:00,1000".data := by
  have hf1 : ⌊(1999 : ℚ) / 2000 / 3600⌋ = 0 :=
    floor_eval _ 0 (by norm_num) (by norm_num)
  have hmod3600 : pyMod ((1999 : ℚ) / 2000) 3600 = 1999 / 2000 := by
    rw [pyMod, hf1]
    norm_num
  have hf2 : ⌊pyMod ((1999 : ℚ) / 2000) 3600 / 60⌋ = 0 := by
    rw [hmod3600]
    exact floor_eval _ 0 (by norm_num) (by norm_num)
  have hf60 : ⌊(1999 : ℚ) / 2000 / 60⌋ = 0 :=
    floor_eval _ 0 (by norm_num) (by norm_num)
  have hmod60 : pyMod ((1999 : ℚ) / 2000) 60 = 1999 / 2000 := by
    rw [pyMod, hf60]
    norm_num
  have hs_ : pyTrunc (pyMod ((1999 : ℚ) / 2000) 60) = 0 := by
    rw [hmod60, pyTrunc_of_nonneg _ (by norm_num)]
    exact floor_eval _ 0 (by norm_num) (by norm_num)
  have ht_ : pyTrunc ((1999 : ℚ) / 2000) = 0 := by
    rw [pyTrunc_of_nonneg _ (by norm_num)]
    exact floor_eval _ 0 (by norm_num) (by norm_num)
  have hms_ : pyRound (((1999 : ℚ) / 2000 -
      (pyTrunc ((1999 : ℚ) / 2000) : ℚ)) * 1000) = 1000 := by
    rw [ht_, show ((1999 : ℚ) / 2000 - ((0 : ℤ) : ℚ)) * 1000 = 1999 / 2
      by norm_num]
    rw [pyRound_eval_half_odd _ 999 (floor_eval _ 999 (by norm_num) (by norm_num))
      (by norm_num) (by norm_num)]
    norm_num
  have hfmt : format_srt_timestamp (1999 / 2000) = "00:00:00,1000".data := by
    simp only [format_srt_timestamp]
    rw [hf1, hf2, hs_, hms_]
    decide
  exact ⟨by rw [hfmt]; decide, hfmt⟩

theorem vtt_split_period (H M S MS : ℕ) :
    splitOnChar '.' (zpad 2 (natToDigits H) ++ ':' :: (zpad 2 (natToDigits M)
      ++ ':' :: (zpad 2 (natToDigits S) ++ '.' :: zpad 3 (natToDigits MS)))) =
    [zpad 2 (natToDigits H) ++ ':' :: (zpad 2 (natToDigits M) ++ ':' ::
      zpad 2 (natToDigits S)), zpad 3 (natToDigits MS)] := by
  have dH := zpad_all_isDigit 2 _ (natToDigits_all_isDigit H)
  have dM := zpad_all_isDigit 2 _ (natToDigits_all_isDigit M)
  have dS := zpad_all_isDigit 2 _ (natToDigits_all_isDigit S)
  have dMS := zpad_all_isDigit 3 _ (natToDigits_all_isDigit MS)
  have hnoperiod : '.' ∉ zpad 2 (natToDigits H) ++ ':' ::
      (zpad 2 (natToDigits M) ++ ':' :: zpad 2 (natToDigits S)) := by
    intro hm
    simp only [List.mem_append, List.mem_cons] at hm
    rcases hm with hm | hm | hm | hm | hm
    · exact absurd (dH '.' hm) (by decide)
    · exact absurd hm (by decide)
    · exact absurd (dM '.' hm) (by decide)
    · exact absurd hm (by decide)
    · exact absurd (dS '.' hm) (by decide)
  have hshape : zpad 2 (natToDigits H) ++ ':' :: (zpad 2 (natToDigits M)
      ++ ':' :: (zpad 2 (natToDigits S) ++ '.' :: zpad 3 (natToDigits MS))) =
      (zpad 2 (natToDigits H) ++ ':' :: (zpad 2 (natToDigits M) ++ ':' ::
        zpad 2 (natToDigits S))) ++ '.' :: zpad 3 (natToDigits MS) := by
    simp
  rw [hshape, splitOnChar_append_sep '.' _ _ hnoperiod,
    splitOnChar_no_sep '.' _ (not_mem_of_all_isDigit _ '.' dMS (by decide))]

theorem vttShapeCheck_of_fields (H M S MS : ℕ)
    (hM : M ≤ 59) (hS : S ≤ 59) (hMS : MS ≤ 999) :
    vttShapeCheck (zpad 2 (natToDigits H) ++ ':' :: (zpad 2 (natToDigits M)
      ++ ':' :: (zpad 2 (natToDigits S) ++ '.' :: zpad 3 (natToDigits MS)))) =
      true := by
  rw [vttShapeCheck, vtt_split_period]
  simp only [srt_split_colon]
  have lM : (zpad 2 (natToDigits M)).length = 2 :=
    zpad_length_eq 2 _ (natToDigits_length_le M 2 (by norm_num) (by omega))
  have lS : (zpad 2 (natToDigits S)).length = 2 :=
    zpad_length_eq 2 _ (natToDigits_length_le S 2 (by norm_num) (by omega))
  have lMS : (zpad 3 (natToDigits MS)).length = 3 :=
    zpad_length_eq 3 _ (natToDigits_length_le MS 3 (by norm_num) (by omega))
  simp only [Bool.and_eq_true, beq_iff_eq, decide_eq_true_eq, List.all_eq_true]
  repeat' apply And.intro
  all_goals first
    | exact zpad_length_ge 2 _
    | exact lM
    | exact lS
    | exact lMS
    | exact fun c hc => zpad_all_isDigit _ _ (natToDigits_all_isDigit _) c hc

theorem format_vtt_shape_all (q : ℚ) (hq : 0 ≤ q)
    (hms : pyRound ((q - (pyTrunc q : ℚ)) * 1000) ≤ 999) :
    vttShapeCheck (format_vtt_timestamp q) = true := by
  have hH0 : 0 ≤ ⌊q / 3600⌋ := Int.floor_nonneg.mpr (by positivity)
  have hM0 : 0 ≤ ⌊pyMod q 3600 / 60⌋ :=
    Int.floor_nonneg.mpr
      (div_nonneg (pyMod_nonneg q 3600 (by norm_num)) (by norm_num))
  have hM59 : ⌊pyMod q 3600 / 60⌋ < 60 := by
    rw [Int.floor_lt]
    rw [div_lt_iff₀ (by norm_num : (0 : ℚ) < 60)]
    have := pyMod_lt q 3600 (by norm_num)
    push_cast
    linarith
  have hS0 : 0 ≤ pyTrunc (pyMod q 60) := by
    rw [pyTrunc_of_nonneg _ (pyMod_nonneg q 60 (by norm_num))]
    exact Int.floor_nonneg.mpr (pyMod_nonneg q 60 (by norm_num))
  have hS59 : pyTrunc (pyMod q 60) < 60 := by
    rw [pyTrunc_of_nonneg _ (pyMod_nonneg q 60 (by norm_num))]
    rw [Int.floor_lt]
    have := pyMod_lt q 60 (by norm_num)
    push_cast
    linarith
  have hMS0 : 0 ≤ pyRound ((q - (pyTrunc q : ℚ)) * 1000) := by
    apply pyRound_nonneg
    rw [pyTrunc_of_nonneg q hq]
    have := Int.floor_le q
    nlinarith
  simp only [format_vtt_timestamp]
  rw [pyFmtInt_ofNat 2 _ hH0, pyFmtInt_ofNat 2 _ hM0, pyFmtInt_ofNat 2 _ hS0,
    pyFmtInt_ofNat 3 _ hMS0]
  simp only [List.cons_append, List.append_assoc]
  exact vttShapeCheck_of_fields _ _ _ _ (by omega) (by omega) (by omega)

theorem format_vtt_scenario :
    format_vtt_timestamp (36614567 / 10000) = "01:01:01.457".data := by
  have hf1 : ⌊(36614567 : ℚ) / 10000 / 3600⌋ = 1 :=
    floor_eval _ 1 (by norm_num) (by norm_num)
  have hmod3600 : pyMod ((36614567 : ℚ) / 10000) 3600 = 614567 / 10000 := by
    rw [pyMod, hf1]
    norm_num
  have hf2 : ⌊pyMod ((36614567 : ℚ) / 10000) 3600 / 60⌋ = 1 := by
    rw [hmod3600]
    exact floor_eval _ 1 (by norm_num) (by norm_num)
  have hf60 : ⌊(36614567 : ℚ) / 10000 / 60⌋ = 61 :=
    floor_eval _ 61 (by norm_num) (by norm_num)
  have hmod60 : pyMod ((36614567 : ℚ) / 10000) 60 = 14567 / 10000 := by
    rw [pyMod, hf60]
    norm_num
  have hs_ : pyTrunc (pyMod ((36614567 : ℚ) / 10000) 60) = 1 := by
    rw [hmod60, pyTrunc_of_nonneg _ (by norm_num)]
    exact floor_eval _ 1 (by norm_num) (by norm_num)
  have ht_ : pyTrunc ((36614567 : ℚ) / 10000) = 3661 := by
    rw [pyTrunc_of_nonneg _ (by norm_num)]
    exact floor_eval _ 3661 (by norm_num) (by norm_num)
  have hms_ : pyRound (((36614567 : ℚ) / 10000 -
      (pyTrunc ((36614567 : ℚ) / 10000) : ℚ)) * 1000) = 457 := by
    rw [ht_, show ((36614567 : ℚ) / 10000 - ((3661 : ℤ) : ℚ)) * 1000 = 4567 / 10
      by norm_num]
    rw [pyRound_eval_up _ 456 (floor_eval _ 456 (by norm_num) (by norm_num))
      (by norm_num)]
    norm_num
  simp only [format_vtt_timestamp]
  rw [hf1, hf2, hs_, hms_]
  decide

/-! ## Claim theorems: timestamp codec -/

/-- **C3** For every millisecond-granularity timestamp `t = n/1000` seconds,
parsing the comma-style formatted text of `t` returns exactly `t` — in
particular the round-trip is within the claimed ±0.001 s tolerance. -/
theorem srt_timestamp_roundtrip (n : ℕ) :
    parse_srt_timestamp (format_srt_timestamp ((n : ℚ) / 1000)) =
      some ((n : ℚ) / 1000) ∧
    ∃ q : ℚ, parse_srt_timestamp (format_srt_timestamp ((n : ℚ) / 1000)) =
      some q ∧ |q - (n : ℚ) / 1000| ≤ 1 / 1000 :=
  ⟨parse_format_millis n, (n : ℚ) / 1000, parse_format_millis n, by norm_num⟩

/-- **C4 counterexample** At 0.9995 s the rounded millisecond field is 1000,
so the formatter emits a four-digit millisecond field `00:00:00,1000`,
refuting the claim that every non-negative value formats with exactly three
millisecond digits. -/
theorem format_srt_four_digit_ms :
    srtShapeCheck (format_srt_timestamp (1999 / 2000)) = false ∧
    format_srt_timestamp (1999 / 2000) = "00:00:00,1000".data :=
  format_srt_ms_overflow

/-- **C4 (amended)** For every non-negative seconds value whose rounded
millisecond field is at most 999 (the fractional part rounds below one whole
second), both timestamp formatters produce zero-padded `HH:MM:SS<sep>mmm`
text — comma separator for the SRT style, period for the VTT style — with an
hour field of at least two digits (unbounded above), exactly two-digit
minutes and seconds, exactly three millisecond digits, and the milliseconds
computed by rounding; `format(3661.4567)` with comma style yields
`"01:01:01,457"` (and with period style `"01:01:01.457"`). -/
theorem format_srt_shape_amended :
    (∀ q : ℚ, 0 ≤ q → pyRound ((q - (pyTrunc q : ℚ)) * 1000) ≤ 999 →
      srtShapeCheck (format_srt_timestamp q) = true) ∧
    (∀ q : ℚ, 0 ≤ q → pyRound ((q - (pyTrunc q : ℚ)) * 1000) ≤ 999 →
      vttShapeCheck (format_vtt_timestamp q) = true) ∧
    format_srt_timestamp (36614567 / 10000) = "01:01:01,457".data ∧
    format_vtt_timestamp (36614567 / 10000) = "01:01:01.457".data :=
  ⟨fun q hq hms => format_srt_shape_all q hq hms,
    fun q hq hms => format_vtt_shape_all q hq hms,
    format_srt_scenario, format_vtt_scenario⟩

/-- Witness for C4 (amended): both shapes hold at 0 seconds. -/
theorem format_srt_shape_amended_witness :
    srtShapeCheck (format_srt_timestamp 0) = true ∧
    vttShapeCheck (format_vtt_timestamp 0) = true :=
  have hhyp : pyRound (((0 : ℚ) - (pyTrunc (0 : ℚ) : ℚ)) * 1000) ≤ 999 := by
    have h0 : pyTrunc (0 : ℚ) = 0 := by
      rw [pyTrunc_of_nonneg _ le_rfl]
      simp
    rw [show ((0 : ℚ) - (pyTrunc (0 : ℚ) : ℚ)) * 1000 = ((0 : ℤ) : ℚ) by
      rw [h0]; norm_num]
    rw [pyRound_intCast]
    norm_num
  ⟨format_srt_shape_amended.1 0 le_rfl hhyp,
    format_srt_shape_amended.2.1 0 le_rfl hhyp⟩
